import Mathlib

/-!
Verification of the extent-based filesystem, redo log and file-descriptor
layer of a small teaching operating system (kernel/fs.c, kernel/sysfile.c,
inc/fs.h, inc/file.h).

The development shallowly embeds the relevant C functions:
pure data is translated to Lean structures, machine integers are `Nat`
with explicit `% 2^32` where unsigned overflow matters, disk and buffer
cache state is passed explicitly, and panics / failed asserts become
`Option.none`.
-/

namespace Xk

/-- Block size in bytes (inc/fs.h: `BSIZE`). -/
def BSIZE : Nat := 512

/-- Modulus of the C `uint` type. -/
def UMOD : Nat := 2 ^ 32

/-- Device-inode type tag. The numeric value of `T_DEV` comes from a header
that is not part of the sources (stat.h); only its distinctness from the
file/directory tags matters to these functions. -/
def T_DEV : Int := 3

/-- One extent: a contiguous run of disk blocks (inc/extent.h as used by
inc/fs.h: `struct extent { uint startblkno; uint nblocks; }`). -/
structure Extent where
  startblkno : Nat
  nblocks : Nat
deriving DecidableEq

/-- The inode fields that `readi`/`raw_writei` consume (inc/file.h
`struct inode` / inc/fs.h `struct dinode`).  The in-memory bookkeeping
fields `dev`, `inum`, `ref`, `valid` and the sleep-lock are not part of
the data these algorithms compute with (there is a single device, and
locking is out of scope of the shallow embedding); `extent_array` is the
C array of 30 slots, modelled as a total function from slot index. -/
structure Inode where
  type : Int
  devid : Int
  size : Nat
  used : Int
  num_extents : Nat
  extent_array : Nat → Extent

/-- The extents the C loops iterate over:
`for (ext = 0; ext < ip->num_extents; ext++) ... ip->extent_array[ext]`. -/
def extList (ip : Inode) : List Extent :=
  (List.range ip.num_extents).map ip.extent_array

/-- Total number of data blocks reachable through the used extents. -/
def totalBlocks (ip : Inode) : Nat :=
  ((extList ip).map Extent.nblocks).sum

/-- The disk blocks of an inode in append order, flattened
(block number of logical block `k` is `flatBlocks ip |>.getD k 0`). -/
def flatBlocks (ip : Inode) : List Nat :=
  ((extList ip).map (fun e => (List.range e.nblocks).map (e.startblkno + ·))).flatten

/-! ### readi (kernel/fs.c, lines 351-401)

The mutable locals of the C loop become a state record.  The disk (the
view through the buffer cache) is a function from block number and byte
index to byte value. -/

/-- Loop state of `readi`: the mutated locals `off`, `n`, `bytes_read`,
`off_blk`, `file_blk_no`, and the bytes `memmove`d to `dst` so far. -/
structure RdSt where
  off : Nat
  n : Nat
  bytes_read : Nat
  off_blk : Nat
  file_blk_no : Nat
  out : List Nat

/-- Body of one contributing-block iteration of `readi`:
`bytes_to_read = min(BSIZE - off%BSIZE, n)`, `bread`, `memmove`, and the
updates of `n`, `bytes_read`, `off`, `dst`. -/
def rdStep (disk : Nat → Nat → Nat) (blk : Nat) (s : RdSt) : RdSt :=
  let bytes := min (BSIZE - s.off % BSIZE) s.n
  { off := s.off + bytes
    n := s.n - bytes
    bytes_read := s.bytes_read + bytes
    off_blk := s.off_blk
    file_blk_no := s.file_blk_no
    out := s.out ++ (List.range bytes).map (fun i => disk blk (s.off % BSIZE + i)) }

/-- Inner `for (blk = e.startblkno; blk < e.startblkno + e.nblocks; blk++)`
loop of `readi`: skip while `file_blk_no != off_blk`, else read; `break`
out of the extent when `n` reaches 0, otherwise advance `off_blk` and
`file_blk_no`. -/
def readi_blks (disk : Nat → Nat → Nat) (blk : Nat) (fuel : Nat) (s : RdSt) : RdSt :=
  match fuel with
  | 0 => s
  | fuel + 1 =>
    if s.file_blk_no ≠ s.off_blk then
      readi_blks disk (blk + 1) fuel { s with file_blk_no := s.file_blk_no + 1 }
    else
      let s' := rdStep disk blk s
      if s'.n = 0 then s'
      else readi_blks disk (blk + 1) fuel
        { s' with off_blk := s'.off_blk + 1, file_blk_no := s'.file_blk_no + 1 }

/-- Outer `for (ext = 0; ext < ip->num_extents; ext++)` loop of `readi`. -/
def readi_exts (disk : Nat → Nat → Nat) (exts : List Extent) (s : RdSt) : RdSt :=
  match exts with
  | [] => s
  | e :: rest => readi_exts disk rest (readi_blks disk e.startblkno e.nblocks s)

/-- `readi(ip, dst, off, n)` (kernel/fs.c:351).  Returns the C return value
together with the bytes copied to `dst`.  The `T_DEV` branch dispatches to
`devsw[devid].read`; its outcome (including the `-1` on a bad `devid`) is
the parameter `devres`.  The parameter checks are the C unsigned
comparisons: `off > ip->size || off + n < off` and `off + n > ip->size`
with `off + n` computed modulo 2^32. -/
def readi (disk : Nat → Nat → Nat) (devres : Int × List Nat) (ip : Inode)
    (off n : Nat) : Int × List Nat :=
  if ip.type = T_DEV then devres
  else if off > ip.size ∨ (off + n) % UMOD < off then (-1, [])
  else
    let n := if (off + n) % UMOD > ip.size then ip.size - off else n
    let s := readi_exts disk (extList ip)
      { off := off, n := n, bytes_read := 0, off_blk := off / BSIZE,
        file_blk_no := 0, out := [] }
    ((s.bytes_read : Int), s.out)

/-! Reference recursion over the flattened block list, and the loop lemmas
relating it to the two nested C loops. -/

/-- The `readi` block loop over an explicit list of block numbers. -/
def readGo (disk : Nat → Nat → Nat) (blks : List Nat) (s : RdSt) : RdSt :=
  match blks with
  | [] => s
  | b :: rest =>
    if s.file_blk_no ≠ s.off_blk then
      readGo disk rest { s with file_blk_no := s.file_blk_no + 1 }
    else
      let s' := rdStep disk b s
      if s'.n = 0 then s'
      else readGo disk rest
        { s' with off_blk := s'.off_blk + 1, file_blk_no := s'.file_blk_no + 1 }

theorem readi_blks_eq_readGo (disk : Nat → Nat → Nat) (fuel : Nat) :
    ∀ (blk : Nat) (s : RdSt),
    readi_blks disk blk fuel s = readGo disk ((List.range fuel).map (blk + ·)) s := by
  induction fuel with
  | zero => intro blk s; rfl
  | succ fuel ih =>
    intro blk s
    have hconn : (List.range (fuel + 1)).map (blk + ·)
        = blk :: (List.range fuel).map ((blk + 1) + ·) := by
      rw [List.range_succ_eq_map]
      simp only [List.map_cons, List.map_map, Nat.add_zero, List.cons.injEq, true_and]
      apply List.map_congr_left
      intro a _
      simp only [Function.comp_apply]
      omega
    rw [hconn]
    simp only [readi_blks, readGo]
    by_cases h : s.file_blk_no = s.off_blk
    · simp only [h, ne_eq, not_true_eq_false, if_false]
      split
      · rfl
      · exact ih (blk + 1) _
    · simp only [ne_eq, h, not_false_eq_true, if_true]
      exact ih (blk + 1) _

theorem rdStep_of_n_zero (disk : Nat → Nat → Nat) (b : Nat) (s : RdSt) (h : s.n = 0) :
    rdStep disk b s = s := by
  cases s with
  | mk off n bytes_read off_blk file_blk_no out =>
    simp only [rdStep]
    simp_all

theorem readGo_eq_of_n_zero (disk : Nat → Nat → Nat) (blks : List Nat) (s : RdSt)
    (h1 : s.n = 0) (h2 : s.file_blk_no = s.off_blk) : readGo disk blks s = s := by
  cases blks with
  | nil => rfl
  | cons b rest =>
    simp only [readGo, h2, ne_eq, not_true_eq_false, if_false]
    rw [rdStep_of_n_zero disk b s h1]
    simp [h1]

theorem readGo_append (disk : Nat → Nat → Nat) (l1 : List Nat) :
    ∀ (l2 : List Nat) (s : RdSt),
    readGo disk (l1 ++ l2) s = readGo disk l2 (readGo disk l1 s) := by
  induction l1 with
  | nil => intro l2 s; rfl
  | cons b l1 ih =>
    intro l2 s
    simp only [List.cons_append, readGo]
    by_cases h : s.file_blk_no = s.off_blk
    · simp only [h, ne_eq, not_true_eq_false, if_false]
      split
      · next hz =>
        have hfb : (rdStep disk b s).file_blk_no = (rdStep disk b s).off_blk := h
        exact (readGo_eq_of_n_zero disk l2 _ hz hfb).symm
      · exact ih l2 _
    · simp only [ne_eq, h, not_false_eq_true, if_true]
      exact ih l2 _

theorem readGo_skip (disk : Nat → Nat → Nat) (k : Nat) :
    ∀ (blks : List Nat) (s : RdSt), s.off_blk = s.file_blk_no + k → k ≤ blks.length →
    readGo disk blks s
      = readGo disk (blks.drop k) { s with file_blk_no := s.file_blk_no + k } := by
  induction k with
  | zero =>
    intro blks s _ _
    cases s
    rfl
  | succ k ih =>
    intro blks s hoff hk
    cases blks with
    | nil => simp at hk
    | cons b rest =>
      simp only [List.length_cons] at hk
      simp only [readGo, List.drop_succ_cons]
      have hne : s.file_blk_no ≠ s.off_blk := by omega
      simp only [ne_eq, hne, not_false_eq_true, if_true]
      rw [ih rest { s with file_blk_no := s.file_blk_no + 1 } (by simp; omega) (by omega)]
      congr 1
      simp
      omega

/-- The `readi` loop with `n = 0` still performs harmless zero-byte reads
while walking the remaining extents, but copies nothing and counts
nothing. -/
theorem readGo_n_zero_counts (disk : Nat → Nat → Nat) (blks : List Nat) :
    ∀ (s : RdSt), s.n = 0 →
    (readGo disk blks s).bytes_read = s.bytes_read ∧ (readGo disk blks s).out = s.out := by
  induction blks with
  | nil => intro s _; exact ⟨rfl, rfl⟩
  | cons b rest ih =>
    intro s hn
    simp only [readGo]
    by_cases h : s.file_blk_no = s.off_blk
    · simp only [h, ne_eq, not_true_eq_false, if_false]
      rw [rdStep_of_n_zero disk b s hn]
      simp [hn]
    · simp only [ne_eq, h, not_false_eq_true, if_true]
      exact ih _ hn

/-- Once the loop has reached the block holding byte `off` (with the
invariants `off_blk = off / BSIZE` and `file_blk_no = off_blk`), and the
remaining blocks can supply the `n` requested bytes, the loop copies
exactly the logical bytes `off, off+1, ...` in order. -/
theorem readGo_reads (disk : Nat → Nat → Nat) (blks : List Nat) :
    ∀ (s : RdSt),
    s.off_blk = s.off / BSIZE →
    s.file_blk_no = s.off_blk →
    s.off % BSIZE + s.n ≤ blks.length * BSIZE →
    (readGo disk blks s).bytes_read = s.bytes_read + s.n ∧
    (readGo disk blks s).out = s.out ++ (List.range s.n).map
      (fun i => disk (blks.getD ((s.off % BSIZE + i) / BSIZE) 0)
                     ((s.off % BSIZE + i) % BSIZE)) := by
  induction blks with
  | nil =>
    intro s _ _ hn
    simp only [List.length_nil, Nat.zero_mul, Nat.le_zero, Nat.add_eq_zero] at hn
    simp [readGo, hn.2]
  | cons b rest ih =>
    intro s hob hfb hn
    simp only [BSIZE] at *
    have hj : s.off % 512 < 512 := Nat.mod_lt _ (by omega)
    simp only [readGo, hfb, ne_eq, not_true_eq_false, if_false]
    simp only [rdStep, BSIZE]
    by_cases hz : s.n - min (512 - s.off % 512) s.n = 0
    · -- the whole request fits in block `b`: the loop breaks here
      have hcn : min (512 - s.off % 512) s.n = s.n := by omega
      rw [hcn]
      simp only [Nat.sub_self, if_true]
      refine ⟨by trivial, ?_⟩
      show s.out ++ _ = s.out ++ _
      congr 1
      apply List.map_congr_left
      intro i hi
      rw [List.mem_range] at hi
      have h1 : (s.off % 512 + i) / 512 = 0 := by omega
      have h2 : (s.off % 512 + i) % 512 = s.off % 512 + i := by omega
      rw [h1, h2, List.getD_cons_zero]
    · -- block `b` is filled to its end; the loop continues into `rest`
      have hc : min (512 - s.off % 512) s.n = 512 - s.off % 512 := by omega
      simp only [hc] at hz ⊢
      simp only [if_neg hz]
      have hcle : 512 - s.off % 512 ≤ s.n := by omega
      set c := 512 - s.off % 512 with hcdef
      set s'' : RdSt :=
        { off := s.off + c, n := s.n - c, bytes_read := s.bytes_read + c,
          off_blk := s.off_blk + 1, file_blk_no := s.file_blk_no + 1,
          out := s.out ++ (List.range c).map (fun i => disk b (s.off % 512 + i)) }
        with hs''
      have hob'' : s''.off_blk = s''.off / 512 := by
        simp only [hs'', hob, hcdef]
        omega
      have hfb'' : s''.file_blk_no = s''.off_blk := by simp [hs'', hfb]
      have hmod : s''.off % 512 = 0 := by simp only [hs'', hcdef]; omega
      have hn'' : s''.off % 512 + s''.n ≤ rest.length * 512 := by
        simp only [List.length_cons] at hn
        simp only [hmod, hs'']
        have : (rest.length + 1) * 512 = rest.length * 512 + 512 := by ring
        omega
      obtain ⟨ihb, iho⟩ := ih s'' hob'' hfb'' hn''
      constructor
      · rw [ihb]
        simp only [hs'']
        omega
      · rw [iho]
        simp only [hs'', hmod, Nat.zero_add]
        have hsplit : List.range s.n = List.range (c + (s.n - c)) := by
          congr 1
          omega
        rw [hsplit, List.range_add, List.map_append, List.map_map, ← List.append_assoc]
        congr 1
        · congr 1
          apply List.map_congr_left
          intro i hi
          rw [List.mem_range] at hi
          have h1 : (s.off % 512 + i) / 512 = 0 := by omega
          have h2 : (s.off % 512 + i) % 512 = s.off % 512 + i := by omega
          rw [h1, h2, List.getD_cons_zero]
        · apply List.map_congr_left
          intro i hi
          rw [List.mem_range] at hi
          simp only [Function.comp_apply]
          have h1 : (s.off % 512 + (c + i)) / 512 = i / 512 + 1 := by
            simp only [hcdef]
            omega
          have h2 : (s.off % 512 + (c + i)) % 512 = i % 512 := by
            simp only [hcdef]
            omega
          rw [h1, h2, List.getD_cons_succ]

theorem readi_exts_eq_readGo (disk : Nat → Nat → Nat) (exts : List Extent) :
    ∀ s, readi_exts disk exts s
      = readGo disk ((exts.map (fun e => (List.range e.nblocks).map (e.startblkno + ·))).flatten) s := by
  induction exts with
  | nil => intro s; rfl
  | cons e rest ih =>
    intro s
    simp only [readi_exts, List.map_cons, List.flatten_cons]
    rw [readGo_append, readi_blks_eq_readGo]
    exact ih _

theorem flatBlocks_length (ip : Inode) : (flatBlocks ip).length = totalBlocks ip := by
  simp only [flatBlocks, totalBlocks, List.length_flatten, List.map_map]
  congr 1
  apply List.map_congr_left
  intro e _
  simp

theorem readi_exts_flatBlocks (disk : Nat → Nat → Nat) (ip : Inode) (s : RdSt) :
    readi_exts disk (extList ip) s = readGo disk (flatBlocks ip) s :=
  readi_exts_eq_readGo disk (extList ip) s

/-- **C1.** For every inode `ip` with `ip.type ≠ T_DEV` (the caller holds
`ip.lock`; locking is outside the embedding), `readi(ip, dst, off, n)`
returns `-1` when `off > ip.size` or when `off + n` overflows the 32-bit
unsigned addition; otherwise it reads `min(n, ip.size - off)` bytes
starting at logical byte `off`, walking the extents in append order
(logical block `k` is the `k`-th block of `flatBlocks`), and returns the
total number of bytes copied. -/
theorem readi_spec (disk : Nat → Nat → Nat) (devres : Int × List Nat) (ip : Inode)
    (off n : Nat)
    (hdev : ip.type ≠ T_DEV)
    (hoff : off < UMOD) (hn : n < UMOD)
    (hcover : ip.size ≤ totalBlocks ip * BSIZE) :
    (off > ip.size ∨ off + n ≥ UMOD → readi disk devres ip off n = (-1, [])) ∧
    (off ≤ ip.size → off + n < UMOD →
      (readi disk devres ip off n).1 = (min n (ip.size - off) : Nat) ∧
      (readi disk devres ip off n).2 = (List.range (min n (ip.size - off))).map
        (fun i => disk ((flatBlocks ip).getD ((off + i) / BSIZE) 0) ((off + i) % BSIZE))) := by
  constructor
  · intro h
    have hcond : off > ip.size ∨ (off + n) % UMOD < off := by
      simp only [UMOD] at *
      omega
    simp only [readi, if_neg hdev, if_pos hcond]
  · intro h1 h2
    have hmodid : (off + n) % UMOD = off + n := Nat.mod_eq_of_lt h2
    have hcond : ¬(off > ip.size ∨ (off + n) % UMOD < off) := by
      rw [hmodid]
      omega
    have hclamp : (if (off + n) % UMOD > ip.size then ip.size - off else n)
        = min n (ip.size - off) := by
      rw [hmodid]
      split <;> omega
    simp only [readi, if_neg hdev, if_neg hcond]
    rw [hclamp, readi_exts_flatBlocks]
    have hk : off / BSIZE ≤ (flatBlocks ip).length := by
      rw [flatBlocks_length]
      simp only [BSIZE] at *
      omega
    rw [readGo_skip disk (off / BSIZE) (flatBlocks ip)
      { off := off, n := min n (ip.size - off), bytes_read := 0, off_blk := off / BSIZE,
        file_blk_no := 0, out := [] } (by simp) hk]
    have hdl : ((flatBlocks ip).drop (off / BSIZE)).length
        = totalBlocks ip - off / BSIZE := by
      rw [List.length_drop, flatBlocks_length]
    obtain ⟨hb, ho⟩ := readGo_reads disk ((flatBlocks ip).drop (off / BSIZE))
      { off := off, n := min n (ip.size - off), bytes_read := 0, off_blk := off / BSIZE,
        file_blk_no := 0 + off / BSIZE, out := [] }
      rfl (by simp)
      (by
        rw [hdl]
        simp only [BSIZE] at *
        omega)
    have hb' : (readGo disk ((flatBlocks ip).drop (off / BSIZE))
        { off := off, n := min n (ip.size - off), bytes_read := 0, off_blk := off / BSIZE,
          file_blk_no := 0 + off / BSIZE, out := [] }).bytes_read
        = 0 + min n (ip.size - off) := hb
    have ho' : (readGo disk ((flatBlocks ip).drop (off / BSIZE))
        { off := off, n := min n (ip.size - off), bytes_read := 0, off_blk := off / BSIZE,
          file_blk_no := 0 + off / BSIZE, out := [] }).out
        = [] ++ (List.range (min n (ip.size - off))).map
            (fun i => disk (((flatBlocks ip).drop (off / BSIZE)).getD ((off % BSIZE + i) / BSIZE) 0)
                           ((off % BSIZE + i) % BSIZE)) := ho
    refine ⟨by rw [hb']; simp, ?_⟩
    rw [ho']
    simp only [List.nil_append]
    apply List.map_congr_left
    intro i hi
    rw [List.mem_range] at hi
    have hgd : ((flatBlocks ip).drop (off / BSIZE)).getD ((off % BSIZE + i) / BSIZE) 0
        = (flatBlocks ip).getD (off / BSIZE + (off % BSIZE + i) / BSIZE) 0 := by
      simp [List.getD_eq_getElem?_getD, List.getElem?_drop]
    rw [hgd]
    have h1' : off / BSIZE + (off % BSIZE + i) / BSIZE = (off + i) / BSIZE := by
      simp only [BSIZE]
      omega
    have h2' : (off % BSIZE + i) % BSIZE = (off + i) % BSIZE := by
      simp only [BSIZE]
      omega
    rw [h1', h2']

/-- **C10.** For a non-device inode, `readi` at `off = ip.size` performs a
successful zero-byte read (returns 0, copies nothing) for every `n` that
does not overflow `off + n`; the `-1` branch is not taken. -/
theorem readi_at_size (disk : Nat → Nat → Nat) (devres : Int × List Nat) (ip : Inode)
    (n : Nat) (hdev : ip.type ≠ T_DEV) (hov : ip.size + n < UMOD) :
    readi disk devres ip ip.size n = (0, []) := by
  simp only [readi, if_neg hdev]
  have hmodid : (ip.size + n) % UMOD = ip.size + n := Nat.mod_eq_of_lt hov
  have hcond : ¬(ip.size > ip.size ∨ (ip.size + n) % UMOD < ip.size) := by
    rw [hmodid]
    omega
  rw [if_neg hcond]
  have hn0 : (if (ip.size + n) % UMOD > ip.size then ip.size - ip.size else n) = 0 := by
    rw [hmodid]
    split <;> omega
  rw [hn0, readi_exts_flatBlocks]
  obtain ⟨hb, ho⟩ := readGo_n_zero_counts disk (flatBlocks ip)
    { off := ip.size, n := 0, bytes_read := 0, off_blk := ip.size / BSIZE,
      file_blk_no := 0, out := [] } rfl
  have hb' : (readGo disk (flatBlocks ip)
      { off := ip.size, n := 0, bytes_read := 0, off_blk := ip.size / BSIZE,
        file_blk_no := 0, out := [] }).bytes_read = 0 := hb
  have ho' : (readGo disk (flatBlocks ip)
      { off := ip.size, n := 0, bytes_read := 0, off_blk := ip.size / BSIZE,
        file_blk_no := 0, out := [] }).out = [] := ho
  rw [Prod.ext_iff]
  exact ⟨by rw [hb']; rfl, by rw [ho']⟩

/-- A concrete disk for witnesses: byte `i` of block `b` is `b * 1000 + i`. -/
def dsk0 : Nat → Nat → Nat := fun b i => b * 1000 + i

/-- A concrete 600-byte file stored in one two-block extent at block 7. -/
def ip0 : Inode :=
  { type := 2, devid := 0, size := 600, used := 1, num_extents := 1,
    extent_array := fun _ => ⟨7, 2⟩ }

theorem readi_spec_witness :
    (readi dsk0 (0, []) ip0 500 100).1 = 100 ∧
    (readi dsk0 (0, []) ip0 500 100).2 = (List.range 100).map
      (fun i => dsk0 ((flatBlocks ip0).getD ((500 + i) / BSIZE) 0) ((500 + i) % BSIZE)) := by
  have h := (readi_spec dsk0 (0, []) ip0 500 100
    (by decide) (by decide) (by decide) (by decide)).2 (by decide) (by decide)
  exact ⟨by rw [h.1]; decide, h.2⟩

theorem readi_at_size_witness : readi dsk0 (0, []) ip0 600 5 = (0, []) :=
  readi_at_size dsk0 (0, []) ip0 5 (by decide) (by decide)

/-! ### raw_writei (kernel/fs.c, lines 825-968)

The write path mirrors `readi`'s walk.  Data writes go through
`bread` / `memmove` / `log_write`; within the transaction later reads see
the staged data through the buffer cache, so the embedding updates the
block view in place (the log staging itself is modelled separately with
`log_write` below).  `balloc` is passed as a pure allocator parameter
`alloc : Nat → Nat` mapping a requested run length to the start block the
bitmap scan found.  Panics (`panic("our file used up all its extents")`)
are `none`. -/

/-- Loop state of `raw_writei`: the mutated locals plus the block view. -/
structure WrSt where
  off : Nat
  n : Nat
  bytes_written : Nat
  off_blk : Nat
  file_blk_no : Nat
  disk : Nat → Nat → Nat

/-- Body of one contributing-block iteration of `raw_writei`:
`space_avail = BSIZE - off%BSIZE`, `num_to_write = min(space_avail, n)`,
`bread`, `memmove` of `src + bytes_written` into the block at offset
`off%BSIZE`, `log_write`, and the updates of `off`, `n`, `bytes_written`. -/
def wrStep (src : Nat → Nat) (blk : Nat) (s : WrSt) : WrSt :=
  let c := min (BSIZE - s.off % BSIZE) s.n
  { off := s.off + c, n := s.n - c, bytes_written := s.bytes_written + c,
    off_blk := s.off_blk, file_blk_no := s.file_blk_no,
    disk := fun b i =>
      if b = blk ∧ s.off % BSIZE ≤ i ∧ i < s.off % BSIZE + c
      then src (s.bytes_written + (i - s.off % BSIZE))
      else s.disk b i }

/-- Inner block loop of `raw_writei` (shared by Case 1 and Case 2 of the C
code): skip while `file_blk_no != off_blk`, else write; `break` when `n`
reaches 0, otherwise advance `off_blk` and `file_blk_no`. -/
def wr_blks (src : Nat → Nat) (blk : Nat) (fuel : Nat) (s : WrSt) : WrSt :=
  match fuel with
  | 0 => s
  | fuel + 1 =>
    if s.file_blk_no ≠ s.off_blk then
      wr_blks src (blk + 1) fuel { s with file_blk_no := s.file_blk_no + 1 }
    else
      let s' := wrStep src blk s
      if s'.n = 0 then s'
      else wr_blks src (blk + 1) fuel
        { s' with off_blk := s'.off_blk + 1, file_blk_no := s'.file_blk_no + 1 }

/-- Case 1 of `raw_writei`: fill the existing extents, walking them in
append order exactly like `readi`. -/
def phaseA (src : Nat → Nat) (exts : List Extent) (s : WrSt) : WrSt :=
  match exts with
  | [] => s
  | e :: rest => phaseA src rest (wr_blks src e.startblkno e.nblocks s)

/-- Initial loop state of `raw_writei`:
`off_blk = off / BSIZE`, `file_blk_no = 0`. -/
def wrInit (disk : Nat → Nat → Nat) (off n : Nat) : WrSt :=
  { off := off, n := n, bytes_written := 0, off_blk := off / BSIZE,
    file_blk_no := 0, disk := disk }

/-- Case 2 of `raw_writei`: if data remains, compute
`blk_padd = off_blk - file_blk_no` and `blk_data = n / BSIZE + 1`, call
`balloc(ip->dev, blk_padd + blk_data)`, increment `num_extents`, panic on
reaching 31, record the new extent in slot `num_extents - 1`, and write
the remaining data into the fresh extent (skipping the padding blocks)
with the same block loop. -/
def phaseB (alloc : Nat → Nat) (src : Nat → Nat) (ip : Inode) (a : WrSt) :
    Option (Inode × WrSt) :=
  if 0 < a.n then
    let blk_padd := a.off_blk - a.file_blk_no
    let blk_data := a.n / BSIZE + 1
    let blk_num := alloc (blk_padd + blk_data)
    let ne := ip.num_extents + 1
    if ne = 31 then none
    else
      let ip' : Inode :=
        { ip with
          num_extents := ne,
          extent_array := fun j =>
            if j = ne - 1 then ⟨blk_num, blk_padd + blk_data⟩ else ip.extent_array j }
      some (ip', wr_blks src blk_num (blk_padd + blk_data) a)
  else some (ip, a)

/-- Size in bytes of the on-disk `struct dinode`
(2 + 2 + 4 + 2 + 2 + 30 * 8 + 4, inc/fs.h). -/
def DINODE_SIZE : Nat := 256

/-- Offset of inode `inum` inside the inodefile (inc/fs.h `INODEOFF`). -/
def INODEOFF (inum : Nat) : Nat := inum * DINODE_SIZE

/-- Byte `k` of the little-endian encoding of `v`. -/
def leByte (v k : Nat) : Nat := v / 256 ^ k % 256

/-- A C `short` reinterpreted as its unsigned 16-bit byte image. -/
def u16 (x : Int) : Nat := ((x % 65536 + 65536) % 65536).toNat

/-- Byte image of the `struct dinode` snapshot `din` that the persist step
of `raw_writei` builds from `ip` and passes to the recursive call
(C layout: type, devid, size, used, num_extents, extent_array[30],
padding[4]). -/
def dinodeBytes (d : Inode) : Nat → Nat := fun i =>
  if i < 2 then leByte (u16 d.type) i
  else if i < 4 then leByte (u16 d.devid) (i - 2)
  else if i < 8 then leByte (d.size % UMOD) (i - 4)
  else if i < 10 then leByte (u16 d.used) (i - 8)
  else if i < 12 then leByte (d.num_extents % 65536) (i - 10)
  else if i < 252 then
    let k := (i - 12) / 8
    let r := (i - 12) % 8
    if r < 4 then leByte ((d.extent_array k).startblkno % UMOD) r
    else leByte ((d.extent_array k).nblocks % UMOD) (r - 4)
  else 0

/-- Filesystem state seen by `raw_writei`: the inode cache keyed by inum
(`icache`; inum 0 is `icache.inodefile`, so the aliasing of `ip` with the
inodefile in the recursive persist call is exact), and the block view. -/
structure FsSt where
  inodes : Nat → Inode
  disk : Nat → Nat → Nat

/-- `raw_writei(ip, src, off, n)` (kernel/fs.c:825).  `fuel` bounds the
persist recursion (which the source bounds by construction); `devres` is
the result of the `devsw[devid].write` dispatch for `T_DEV` inodes.  The
`n < 0 || off < 0` check of the C is vacuous for unsigned values and only
prints.  Returns `none` on panic, otherwise the C return value and the
final state. -/
def raw_writei (alloc : Nat → Nat) (devres : Int) :
    Nat → FsSt → Nat → (Nat → Nat) → Nat → Nat → Option (Int × FsSt)
  | 0, _, _, _, _, _ => none
  | fuel + 1, st, inum, src, off, n =>
    let ip := st.inodes inum
    if ip.type = T_DEV then some (devres, st)
    else
      let old_size := ip.size
      let a := phaseA src (extList ip) (wrInit st.disk off n)
      match phaseB alloc src ip a with
      | none => none
      | some (ip1, b) =>
        let st1 : FsSt :=
          { inodes := fun j => if j = inum then ip1 else st.inodes j, disk := b.disk }
        if b.n ≠ 0 then some (-1, st1)
        else
          let ip2 := { ip1 with size := max ip1.size (off + b.bytes_written) }
          let st2 : FsSt := { st1 with inodes := fun j => if j = inum then ip2 else st.inodes j }
          if ip2.size = old_size then some ((b.bytes_written : Int), st2)
          else
            match raw_writei alloc devres fuel st2 0 (dinodeBytes ip2) (INODEOFF inum) DINODE_SIZE with
            | none => none
            | some (_, st3) => some ((b.bytes_written : Int), st3)

/-- While data remains to be written, the block loop keeps
`off_blk = off / BSIZE` in lock step with the advancing `off`. -/
theorem wr_blks_off_blk_inv (src : Nat → Nat) (fuel : Nat) :
    ∀ (blk : Nat) (s : WrSt), (0 < s.n → s.off_blk = s.off / BSIZE) →
    (0 < (wr_blks src blk fuel s).n →
      (wr_blks src blk fuel s).off_blk = (wr_blks src blk fuel s).off / BSIZE) := by
  induction fuel with
  | zero => intro blk s h; exact h
  | succ fuel ih =>
    intro blk s h
    simp only [wr_blks]
    split
    · exact ih (blk + 1) _ h
    · next hfb =>
      by_cases hz : (wrStep src blk s).n = 0
      · rw [if_pos hz]
        intro hc
        omega
      · rw [if_neg hz]
        apply ih
        intro _
        have hn0 : 0 < s.n := by
          simp only [wrStep] at hz
          omega
        have hob := h hn0
        simp only [wrStep, BSIZE] at hz ⊢
        simp only [BSIZE] at hob
        omega

/-- `phaseA` preserves the `off_blk = off / BSIZE` invariant. -/
theorem phaseA_off_blk_inv (src : Nat → Nat) (exts : List Extent) :
    ∀ (s : WrSt), (0 < s.n → s.off_blk = s.off / BSIZE) →
    (0 < (phaseA src exts s).n →
      (phaseA src exts s).off_blk = (phaseA src exts s).off / BSIZE) := by
  induction exts with
  | nil => intro s h; exact h
  | cons e rest ih =>
    intro s h
    exact ih _ (wr_blks_off_blk_inv src e.nblocks e.startblkno s h)

/-- `raw_writei` mutates no cached inode other than its target and (through
the persist recursion) the inodefile. -/
theorem raw_writei_frame (alloc : Nat → Nat) (devres : Int) :
    ∀ (fuel : Nat) (st : FsSt) (inum : Nat) (src : Nat → Nat) (off n : Nat)
      (ret : Int) (st' : FsSt),
    raw_writei alloc devres fuel st inum src off n = some (ret, st') →
    ∀ j, j ≠ inum → j ≠ 0 → st'.inodes j = st.inodes j := by
  intro fuel
  induction fuel with
  | zero =>
    intro st inum src off n ret st' h
    simp [raw_writei] at h
  | succ fuel ih =>
    intro st inum src off n ret st' h j hj1 hj2
    simp only [raw_writei] at h
    split at h
    · simp only [Option.some.injEq, Prod.mk.injEq] at h
      rw [← h.2]
    · split at h
      · exact absurd h (by simp)
      · next ip1 b hPB =>
        split at h
        · simp only [Option.some.injEq, Prod.mk.injEq] at h
          rw [← h.2]
          simp [hj1]
        · split at h
          · simp only [Option.some.injEq, Prod.mk.injEq] at h
            rw [← h.2]
            simp [hj1]
          · split at h
            · exact absurd h (by simp)
            · next r st3 hrec =>
              simp only [Option.some.injEq, Prod.mk.injEq] at h
              rw [← h.2]
              have hfr := ih _ 0 _ _ _ _ _ hrec j hj2 hj2
              rw [hfr]
              simp [hj1]

/-- The extent Case 2 of `raw_writei` appends, as a function of the
post-Case-1 loop state `a`: `nblocks = blk_padd + blk_data` with
`blk_padd = off_blk - file_blk_no` and `blk_data = n / BSIZE + 1`, and
`startblkno` obtained from `balloc` for that run length. -/
def newExtent (alloc : Nat → Nat) (a : WrSt) : Extent :=
  ⟨alloc ((a.off_blk - a.file_blk_no) + (a.n / BSIZE + 1)),
   (a.off_blk - a.file_blk_no) + (a.n / BSIZE + 1)⟩

/-- **C2.** For a non-device inode (distinct from the inodefile, whose own
persist step may grow it again): whenever `n` bytes remain after filling
the existing extents, `raw_writei` appends exactly one new extent, in slot
`num_extents`, equal to `newExtent alloc a` — `nblocks = blk_padd +
blk_data`, `blk_padd = (off / BSIZE) - file_blk_no` (the loop invariant
`off_blk = off / BSIZE` is part of the conclusion), `blk_data = n / BSIZE
+ 1`, `startblkno = balloc(ip->dev, blk_padd + blk_data)`. -/
theorem raw_writei_appends (alloc : Nat → Nat) (devres : Int) (fuel : Nat) (st : FsSt)
    (inum : Nat) (src : Nat → Nat) (off n : Nat) (ret : Int) (st' : FsSt)
    (hdev : (st.inodes inum).type ≠ T_DEV)
    (hinum : inum ≠ 0)
    (hrem : 0 < (phaseA src (extList (st.inodes inum)) (wrInit st.disk off n)).n)
    (hcap : (st.inodes inum).num_extents ≤ 29)
    (heq : raw_writei alloc devres (fuel + 1) st inum src off n = some (ret, st')) :
    (st'.inodes inum).num_extents = (st.inodes inum).num_extents + 1 ∧
    (st'.inodes inum).extent_array (st.inodes inum).num_extents
      = newExtent alloc (phaseA src (extList (st.inodes inum)) (wrInit st.disk off n)) ∧
    (∀ j, j ≠ (st.inodes inum).num_extents →
      (st'.inodes inum).extent_array j = (st.inodes inum).extent_array j) ∧
    (phaseA src (extList (st.inodes inum)) (wrInit st.disk off n)).off_blk
      = (phaseA src (extList (st.inodes inum)) (wrInit st.disk off n)).off / BSIZE := by
  have hinv := phaseA_off_blk_inv src (extList (st.inodes inum))
    (wrInit st.disk off n) (fun _ => rfl) hrem
  have hne31 : (st.inodes inum).num_extents + 1 ≠ 31 := by omega
  simp only [raw_writei, if_neg hdev, phaseB, if_pos hrem, if_neg hne31] at heq
  have hmain : (st'.inodes inum).num_extents = (st.inodes inum).num_extents + 1 ∧
      (st'.inodes inum).extent_array (st.inodes inum).num_extents
        = newExtent alloc (phaseA src (extList (st.inodes inum)) (wrInit st.disk off n)) ∧
      (∀ j, j ≠ (st.inodes inum).num_extents →
        (st'.inodes inum).extent_array j = (st.inodes inum).extent_array j) := by
    split at heq
    · -- short write: returns -1 with the extent already appended
      simp only [Option.some.injEq, Prod.mk.injEq] at heq
      rw [← heq.2]
      simp [newExtent]
      exact fun j h1 h2 => absurd h2 h1
    · split at heq
      · -- size unchanged: no persist recursion
        simp only [Option.some.injEq, Prod.mk.injEq] at heq
        rw [← heq.2]
        simp [newExtent]
        exact fun j h1 h2 => absurd h2 h1
      · split at heq
        · exact absurd heq (by simp)
        · next r st3 hrec =>
          simp only [Option.some.injEq, Prod.mk.injEq] at heq
          rw [← heq.2]
          have hfr := raw_writei_frame alloc devres fuel _ 0 _ _ _ _ _ hrec inum hinum hinum
          rw [hfr]
          simp [newExtent]
          exact fun j h1 h2 => absurd h2 h1
  exact ⟨hmain.1, hmain.2.1, hmain.2.2, hinv⟩

/-- A concrete allocator for witnesses: every run starts at block 100. -/
def alloc0 : Nat → Nat := fun _ => 100

/-- A concrete inodefile inode: 2048 bytes in one 4-block extent at 3. -/
def ifInode : Inode :=
  { type := 2, devid := 0, size := 2048, used := 1, num_extents := 1,
    extent_array := fun _ => ⟨3, 4⟩ }

/-- A concrete empty regular-file inode. -/
def emptyInode : Inode :=
  { type := 2, devid := 0, size := 0, used := 1, num_extents := 0,
    extent_array := fun _ => ⟨0, 0⟩ }

/-- A concrete cache state: inum 0 is the inodefile, inum 5 an empty file. -/
def stE : FsSt :=
  { inodes := fun j => if j = 0 then ifInode else emptyInode,
    disk := fun _ _ => 0 }

/-- A concrete source buffer. -/
def src0 : Nat → Nat := fun i => i % 256

theorem raw_writei_appends_witness :
    (raw_writei alloc0 0 2 stE 5 src0 0 100).map
      (fun r => ((r.2.inodes 5).num_extents, (r.2.inodes 5).extent_array 0))
      = some (1, ⟨100, 1⟩) := by
  obtain ⟨ret, st', heq⟩ : ∃ ret st',
      raw_writei alloc0 0 2 stE 5 src0 0 100 = some (ret, st') := ⟨_, _, rfl⟩
  have h := raw_writei_appends alloc0 0 1 stE 5 src0 0 100 ret st'
    (by decide) (by decide) (by decide) (by decide) heq
  have h1 : (st'.inodes 5).num_extents = 1 := h.1
  have h2 : (st'.inodes 5).extent_array 0 = (⟨100, 1⟩ : Extent) := h.2.1
  rw [heq]
  simp [h1, h2]

/-- `phaseB` never changes the inode size. -/
theorem phaseB_size (alloc : Nat → Nat) (src : Nat → Nat) (ip : Inode) (a : WrSt)
    (ip1 : Inode) (b : WrSt) (h : phaseB alloc src ip a = some (ip1, b)) :
    ip1.size = ip.size := by
  simp only [phaseB] at h
  split at h
  · split at h
    · exact absurd h (by simp)
    · simp only [Option.some.injEq, Prod.mk.injEq] at h
      rw [← h.1]
  · simp only [Option.some.injEq, Prod.mk.injEq] at h
    rw [← h.1]

/-- **C8 (amended).** When `raw_writei` fails to fully consume `n` (bytes
remain after Case 2), it prints a diagnostic and returns `-1` immediately:
the returned state is exactly the post-loop state — the inode size is not
updated (`ip1.size` is the original size), and the recursive inode-persist
write into the inodefile is not performed. -/
theorem raw_writei_short_write (alloc : Nat → Nat) (devres : Int) (fuel : Nat) (st : FsSt)
    (inum : Nat) (src : Nat → Nat) (off n : Nat) (ip1 : Inode) (b : WrSt)
    (hdev : (st.inodes inum).type ≠ T_DEV)
    (hPB : phaseB alloc src (st.inodes inum)
      (phaseA src (extList (st.inodes inum)) (wrInit st.disk off n)) = some (ip1, b))
    (hn : b.n ≠ 0) :
    raw_writei alloc devres (fuel + 1) st inum src off n
      = some (-1, { inodes := fun j => if j = inum then ip1 else st.inodes j,
                    disk := b.disk }) ∧
    ip1.size = (st.inodes inum).size := by
  refine ⟨?_, phaseB_size alloc src _ _ ip1 b hPB⟩
  simp only [raw_writei, if_neg hdev, hPB, if_pos hn]

/-- **C8, original claim refuted.** On an empty file, a write of 769 bytes
at offset 256 allocates `blk_data = 769/512 + 1 = 2` blocks, which hold
only 768 bytes past the offset: one byte remains.  The code then returns
`-1` — not `bytes_written` (768) — and the inode size is left at 0, so the
persist step did not run. -/
theorem raw_writei_short_cex :
    (raw_writei alloc0 0 2 stE 5 src0 256 769).map (fun r => r.1) = some (-1) ∧
    (wr_blks src0 (alloc0 2) 2 (phaseA src0 (extList (stE.inodes 5))
       (wrInit stE.disk 256 769))).bytes_written = 768 ∧
    ((-1 : Int) ≠ 768) ∧
    (raw_writei alloc0 0 2 stE 5 src0 256 769).map (fun r => (r.2.inodes 5).size)
      = some 0 := by
  refine ⟨by decide, by decide, by decide, by decide⟩

/-- The inode state Case 2 produces in the C8 counterexample run. -/
def ipCex : Inode :=
  { type := 2, devid := 0, size := 0, used := 1, num_extents := 1,
    extent_array := fun j => if j = 0 then ⟨100, 2⟩ else ⟨0, 0⟩ }

theorem raw_writei_short_write_witness :
    (raw_writei alloc0 0 2 stE 5 src0 256 769).map
      (fun r => (r.1, (r.2.inodes 5).size)) = some (-1, 0) := by
  have hPB : phaseB alloc0 src0 (stE.inodes 5)
      (phaseA src0 (extList (stE.inodes 5)) (wrInit stE.disk 256 769))
      = some (ipCex, wr_blks src0 (alloc0 2) 2
          (phaseA src0 (extList (stE.inodes 5)) (wrInit stE.disk 256 769))) := rfl
  have hb : (wr_blks src0 (alloc0 2) 2
      (phaseA src0 (extList (stE.inodes 5)) (wrInit stE.disk 256 769))).n ≠ 0 := by decide
  rw [(raw_writei_short_write alloc0 0 1 stE 5 src0 256 769 ipCex _
    (by decide) hPB hb).1]
  decide

/-- `phaseB` keeps `num_extents ≤ 30` and never touches slots 30 and
beyond: the 31st slot is guarded by the panic. -/
theorem phaseB_cap (alloc : Nat → Nat) (src : Nat → Nat) (ip : Inode) (a : WrSt)
    (ip1 : Inode) (b : WrSt) (hcap : ip.num_extents ≤ 30)
    (h : phaseB alloc src ip a = some (ip1, b)) :
    ip1.num_extents ≤ 30 ∧ (∀ k, 30 ≤ k → ip1.extent_array k = ip.extent_array k) := by
  simp only [phaseB] at h
  split at h
  · split at h
    · exact absurd h (by simp)
    · next hne =>
      simp only [Option.some.injEq, Prod.mk.injEq] at h
      rw [← h.1]
      constructor
      · dsimp only
        omega
      · intro k hk
        have hkne : k ≠ ip.num_extents := by omega
        dsimp only
        simp [hkne]
  · simp only [Option.some.injEq, Prod.mk.injEq] at h
    rw [← h.1]
    exact ⟨hcap, fun k _ => rfl⟩

/-- If every cached inode respects the 30-extent bound, a completed
`raw_writei` preserves the bound and leaves the out-of-range slots of
every cached inode untouched. -/
theorem raw_writei_cap (alloc : Nat → Nat) (devres : Int) :
    ∀ (fuel : Nat) (st : FsSt) (inum : Nat) (src : Nat → Nat) (off n : Nat)
      (ret : Int) (st' : FsSt),
    (∀ j, (st.inodes j).num_extents ≤ 30) →
    raw_writei alloc devres fuel st inum src off n = some (ret, st') →
    (∀ j, (st'.inodes j).num_extents ≤ 30) ∧
    (∀ j k, 30 ≤ k → (st'.inodes j).extent_array k = (st.inodes j).extent_array k) := by
  intro fuel
  induction fuel with
  | zero =>
    intro st inum src off n ret st' _ h
    simp [raw_writei] at h
  | succ fuel ih =>
    intro st inum src off n ret st' hcap h
    simp only [raw_writei] at h
    split at h
    · simp only [Option.some.injEq, Prod.mk.injEq] at h
      rw [← h.2]
      exact ⟨hcap, fun j k _ => rfl⟩
    · split at h
      · exact absurd h (by simp)
      · next ip1 b hPB =>
        obtain ⟨hc1, hc2⟩ := phaseB_cap _ _ _ _ _ _ (hcap inum) hPB
        split at h
        · simp only [Option.some.injEq, Prod.mk.injEq] at h
          rw [← h.2]
          constructor
          · intro j
            by_cases hj : j = inum <;> simp [hj, hc1, hcap j]
          · intro j k hk
            by_cases hj : j = inum <;> simp [hj, hc2 k hk]
        · split at h
          · simp only [Option.some.injEq, Prod.mk.injEq] at h
            rw [← h.2]
            constructor
            · intro j
              by_cases hj : j = inum <;> simp [hj, hc1, hcap j]
            · intro j k hk
              by_cases hj : j = inum <;> simp [hj, hc2 k hk]
          · split at h
            · exact absurd h (by simp)
            · next r st3 hrec =>
              simp only [Option.some.injEq, Prod.mk.injEq] at h
              rw [← h.2]
              have hcap2 : ∀ j, ((fun j => if j = inum
                  then { ip1 with size := max ip1.size (off + b.bytes_written) }
                  else st.inodes j : Nat → Inode) j).num_extents ≤ 30 := by
                intro j
                by_cases hj : j = inum <;> simp [hj, hc1, hcap j]
              obtain ⟨h31, h32⟩ := ih _ 0 _ _ _ _ _ (fun j => hcap2 j) hrec
              constructor
              · exact h31
              · intro j k hk
                rw [h32 j k hk]
                by_cases hj : j = inum <;> simp [hj, hc2 k hk]

/-- **C9.** An inode holds at most 30 extents: if the target already has
30 extents and data remains after the existing extents are filled, the
write panics before the out-of-range slot 30 is written; and any
`raw_writei` that completes keeps every cached inode at ≤ 30 extents with
the slots beyond index 29 untouched. -/
theorem raw_writei_extent_cap (alloc : Nat → Nat) (devres : Int) (fuel : Nat) (st : FsSt)
    (inum : Nat) (src : Nat → Nat) (off n : Nat)
    (hdev : (st.inodes inum).type ≠ T_DEV) :
    ((st.inodes inum).num_extents = 30 →
      0 < (phaseA src (extList (st.inodes inum)) (wrInit st.disk off n)).n →
      raw_writei alloc devres (fuel + 1) st inum src off n = none) ∧
    ((∀ j, (st.inodes j).num_extents ≤ 30) →
      ∀ ret st', raw_writei alloc devres (fuel + 1) st inum src off n = some (ret, st') →
        (∀ j, (st'.inodes j).num_extents ≤ 30) ∧
        (∀ j k, 30 ≤ k → (st'.inodes j).extent_array k = (st.inodes j).extent_array k)) := by
  constructor
  · intro h30 hrem
    simp [raw_writei, if_neg hdev, phaseB, if_pos hrem, h30]
  · intro hcap ret st' h
    exact raw_writei_cap alloc devres (fuel + 1) st inum src off n ret st' hcap h

/-- A concrete inode that has used all 30 extents (one block each). -/
def fullInode : Inode :=
  { type := 2, devid := 0, size := 30 * 512, used := 1, num_extents := 30,
    extent_array := fun k => ⟨200 + k, 1⟩ }

/-- A concrete cache state whose inum 5 has 30 extents. -/
def stF : FsSt :=
  { inodes := fun j => if j = 0 then ifInode else fullInode,
    disk := fun _ _ => 0 }

theorem raw_writei_extent_cap_witness :
    raw_writei alloc0 0 2 stF 5 src0 (30 * 512) 10 = none :=
  (raw_writei_extent_cap alloc0 0 1 stF 5 src0 (30 * 512) 10 (by decide)).1
    (by decide) (by decide)

/-! ### The redo write-ahead log (kernel/fs.c, lines 690-810)

`log_begin_tx`, `log_write`, `log_commit` and `log_recover` copy whole
512-byte blocks; a block's content is modelled as one opaque value.  The
header block at `sb.logstart` holds the `struct logheader`; it is modelled
as a distinguished structured field of the disk state, the remaining
blocks as a map from block number to content.  `assert` failures are
`none`.  The numeric values of `TX_INVALID` / `TX_VALID` live in a header
outside the sources; only their distinctness is used (equality tests),
so the flag is a two-constructor type. -/

/-- The transaction flag of the log header (`TX_INVALID` / `TX_VALID`). -/
inductive LogFlag where
  | invalid
  | valid
deriving DecidableEq

/-- `struct logheader { valid_flag; size; disk_loc[] }`.  The C array is a
total function from slot index. -/
structure LogHeader where
  valid_flag : LogFlag
  size : Nat
  disk_loc : Nat → Nat

/-- Disk state for the log routines: the header block plus all other
blocks (content per block number). -/
structure LDisk where
  header : LogHeader
  blocks : Nat → Nat

/-- `log_begin_tx()` (kernel/fs.c:690): writes a fresh local header
`{size = 0, valid_flag = TX_INVALID}` over the header block.  The local
struct's `disk_loc` array is uninitialized stack memory, passed in as
`junk`. -/
def log_begin_tx (junk : Nat → Nat) (d : LDisk) : LDisk :=
  { d with header := { valid_flag := .invalid, size := 0, disk_loc := junk } }

/-- `log_write(buff)` (kernel/fs.c:706): asserts `valid_flag == TX_INVALID`
and `size <= 28`, copies the staged block into log slot
`logstart + size + 1`, records `buff->blockno` in `disk_loc[size]`, and
increments `size`. -/
def log_write (logstart : Nat) (blockno content : Nat) (d : LDisk) : Option LDisk :=
  if d.header.valid_flag = .invalid ∧ d.header.size ≤ 28 then
    some
      { header :=
          { valid_flag := .invalid
            size := d.header.size + 1
            disk_loc := fun i => if i = d.header.size then blockno else d.header.disk_loc i }
        blocks := fun b => if b = logstart + d.header.size + 1 then content else d.blocks b }
  else none

/-- The block-transfer loop shared by `log_commit` and `log_recover`:
for each staged index `i`, copy log slot `logstart + i + 1` over home
block `disk_loc[i]`, in increasing order of `i`. -/
def replayGo (logstart : Nat) (loc : Nat → Nat) :
    Nat → Nat → (Nat → Nat) → (Nat → Nat)
  | _, 0, blocks => blocks
  | i, k + 1, blocks =>
    replayGo logstart loc (i + 1) k
      (fun b => if b = loc i then blocks (logstart + i + 1) else blocks b)

/-- Replay `size` staged blocks starting from index 0. -/
def replay (logstart size : Nat) (loc : Nat → Nat) (blocks : Nat → Nat) : Nat → Nat :=
  replayGo logstart loc 0 size blocks

/-- `log_commit()` (kernel/fs.c:732): asserts `valid_flag == TX_INVALID`
and `size <= 29`; flips the header to `TX_VALID` and flushes; rereads the
header and asserts again; copies every staged block to its home location;
finally rewrites the header with `valid_flag = TX_INVALID, size = 0`. -/
def log_commit (logstart : Nat) (d : LDisk) : Option LDisk :=
  if d.header.valid_flag = .invalid ∧ d.header.size ≤ 29 then
    let d1 : LDisk := { d with header := { d.header with valid_flag := .valid } }
    if d1.header.valid_flag = .valid ∧ d1.header.size ≤ 29 then
      let d2 : LDisk :=
        { d1 with blocks := replay logstart d1.header.size d1.header.disk_loc d1.blocks }
      some { d2 with header := { d2.header with valid_flag := .invalid, size := 0 } }
    else none
  else none

/-- `log_recover()` (kernel/fs.c:779): if the header says `TX_VALID`,
replay every staged block to its home location; in all cases rewrite the
header with `valid_flag = TX_INVALID, size = 0` (keeping `disk_loc`). -/
def log_recover (logstart : Nat) (d : LDisk) : LDisk :=
  let d1 : LDisk :=
    if d.header.valid_flag = .valid
    then { d with blocks := replay logstart d.header.size d.header.disk_loc d.blocks }
    else d
  { d1 with header := { d1.header with valid_flag := .invalid, size := 0 } }

/-- **C4.** `log_recover` is idempotent: a second run sees `TX_INVALID`,
skips the replay, and rewrites the header with the values it already has. -/
theorem log_recover_idem (logstart : Nat) (d : LDisk) :
    log_recover logstart (log_recover logstart d) = log_recover logstart d := by
  simp [log_recover]

/-- A transaction: `log_begin_tx` followed by one `log_write` per staged
block, each propagating an assert failure. -/
def stageAll (logstart : Nat) : LDisk → List (Nat × Nat) → Option LDisk
  | d, [] => some d
  | d, p :: rest =>
    match log_write logstart p.1 p.2 d with
    | none => none
    | some d' => stageAll logstart d' rest

/-- Effect of staging a list of `(blockno, content)` pairs: the asserts
pass, `size` grows by the number of staged blocks, `disk_loc` records the
home block numbers in order, the log slots hold the staged contents, and
nothing else on disk changes. -/
theorem stageAll_spec (logstart : Nat) (L : List (Nat × Nat)) :
    ∀ (d : LDisk), d.header.valid_flag = .invalid →
    d.header.size + L.length ≤ 29 →
    ∃ d2, stageAll logstart d L = some d2 ∧
      d2.header.valid_flag = .invalid ∧
      d2.header.size = d.header.size + L.length ∧
      (∀ j (h : j < L.length),
        d2.header.disk_loc (d.header.size + j) = (L.get ⟨j, h⟩).1) ∧
      (∀ j (h : j < L.length),
        d2.blocks (logstart + (d.header.size + j) + 1) = (L.get ⟨j, h⟩).2) ∧
      (∀ b, (∀ j, j < L.length → b ≠ logstart + (d.header.size + j) + 1) →
        d2.blocks b = d.blocks b) ∧
      (∀ i, i < d.header.size → d2.header.disk_loc i = d.header.disk_loc i) := by
  induction L with
  | nil =>
    intro d hv _
    exact ⟨d, rfl, hv, by simp, fun j h => by simp at h, fun j h => by simp at h,
      fun b _ => rfl, fun i _ => rfl⟩
  | cons p rest ih =>
    intro d hv hsz
    simp only [List.length_cons] at hsz
    set d' : LDisk :=
      { header :=
          { valid_flag := .invalid
            size := d.header.size + 1
            disk_loc := fun i => if i = d.header.size then p.1 else d.header.disk_loc i }
        blocks := fun b => if b = logstart + d.header.size + 1 then p.2 else d.blocks b }
      with hd'
    have hw : log_write logstart p.1 p.2 d = some d' := by
      simp only [log_write, if_pos (And.intro hv (by omega : d.header.size ≤ 28))]
    have hd'v : d'.header.valid_flag = .invalid := rfl
    have hd's : d'.header.size = d.header.size + 1 := rfl
    have hd'loc : ∀ i, d'.header.disk_loc i
        = if i = d.header.size then p.1 else d.header.disk_loc i := fun _ => rfl
    have hd'blk : ∀ b, d'.blocks b
        = if b = logstart + d.header.size + 1 then p.2 else d.blocks b := fun _ => rfl
    obtain ⟨d2, h1, h2, h3, h4, h5, h6, h7⟩ := ih d' hd'v (by omega)
    rw [hd's] at h3 h4 h5 h6 h7
    refine ⟨d2, ?_, h2, by simp only [List.length_cons]; omega, ?_, ?_, ?_, ?_⟩
    · simp only [stageAll, hw]
      exact h1
    · intro j hj
      match j with
      | 0 =>
        have h := h7 d.header.size (by omega)
        rw [Nat.add_zero, h, hd'loc]
        simp [List.get]
      | j + 1 =>
        simp only [List.length_cons] at hj
        have h := h4 j (by omega)
        rw [show d.header.size + (j + 1) = d.header.size + 1 + j by omega, h]
        rfl
    · intro j hj
      match j with
      | 0 =>
        have h := h6 (logstart + d.header.size + 1) (fun j' hj' => by omega)
        rw [show logstart + (d.header.size + 0) + 1 = logstart + d.header.size + 1 by omega,
          h, hd'blk]
        simp [List.get]
      | j + 1 =>
        simp only [List.length_cons] at hj
        have h := h5 j (by omega)
        rw [show d.header.size + (j + 1) = d.header.size + 1 + j by omega, h]
        rfl
    · intro b hb
      have hstep : ∀ j', j' < rest.length → b ≠ logstart + (d.header.size + 1 + j') + 1 := by
        intro j' hj'
        have h := hb (j' + 1) (by simp only [List.length_cons]; omega)
        omega
      rw [h6 b hstep, hd'blk]
      have hb0 : b ≠ logstart + d.header.size + 1 := by
        have h := hb 0 (by simp only [List.length_cons]; omega)
        omega
      simp [hb0]
    · intro i hi
      rw [h7 i (by omega), hd'loc]
      have : i ≠ d.header.size := by omega
      simp [this]

/-- A block that no replayed home location matches is untouched by the
transfer loop. -/
theorem replayGo_frame (logstart : Nat) (loc : Nat → Nat) :
    ∀ (k i : Nat) (blocks : Nat → Nat) (b : Nat),
    (∀ a, i ≤ a → a < i + k → loc a ≠ b) →
    replayGo logstart loc i k blocks b = blocks b := by
  intro k
  induction k with
  | zero => intro i blocks b _; rfl
  | succ k ih =>
    intro i blocks b h
    simp only [replayGo]
    rw [ih (i + 1) _ b (fun a ha1 ha2 => h a (by omega) (by omega))]
    have : loc i ≠ b := h i (by omega) (by omega)
    simp [Ne.symm this]

/-- When home locations stay clear of the log slots and are pairwise
distinct on the replayed range, the transfer loop deposits the content of
log slot `j` at home `loc j`. -/
theorem replayGo_hit (logstart : Nat) (loc : Nat → Nat) :
    ∀ (k i : Nat) (blocks blocks0 : Nat → Nat),
    (∀ m, m < i + k → blocks (logstart + m + 1) = blocks0 (logstart + m + 1)) →
    (∀ a, i ≤ a → a < i + k → ∀ m, m < i + k → loc a ≠ logstart + m + 1) →
    ∀ j, i ≤ j → j < i + k →
    (∀ a, i ≤ a → a < i + k → a ≠ j → loc a ≠ loc j) →
    replayGo logstart loc i k blocks (loc j) = blocks0 (logstart + j + 1) := by
  intro k
  induction k with
  | zero => intro i blocks blocks0 _ _ j h1 h2; omega
  | succ k ih =>
    intro i blocks blocks0 hsl hout j hj1 hj2 hdist
    simp only [replayGo]
    by_cases hij : i = j
    · subst hij
      rw [replayGo_frame logstart loc k (i + 1) _ (loc i)
        (fun a ha1 ha2 => hdist a (by omega) (by omega) (by omega))]
      simp only [if_pos rfl]
      exact hsl i (by omega)
    · have hjge : i + 1 ≤ j := by omega
      rw [ih (i + 1) _ blocks0 ?_ ?_ j hjge (by omega)
        (fun a ha1 ha2 hne => hdist a (by omega) (by omega) hne)]
      · intro m hm
        have hne : logstart + m + 1 ≠ loc i := by
          have h := hout i (by omega) (by omega) m (by omega)
          exact fun heq => h heq.symm
        simp only [if_neg hne]
        exact hsl m (by omega)
      · intro a ha1 ha2 m hm
        exact hout a (by omega) (by omega) m (by omega)

/-- **C3.** Running `log_begin_tx`, staging the blocks of `L` with
`log_write`, and committing with `log_commit` succeeds whenever at most 29
blocks are staged, their home block numbers avoid the log area
(`[logstart, logstart + 29]`) and are pairwise distinct; afterwards the
on-disk header has `valid_flag = TX_INVALID` and `size = 0`, and every
staged block has been copied from its log slot to its home block number
`disk_loc[i]` (the slot holding exactly the staged content). -/
theorem log_commit_ok (logstart : Nat) (junk : Nat → Nat) (d0 : LDisk)
    (L : List (Nat × Nat))
    (hlen : L.length ≤ 29)
    (hout : ∀ p ∈ L, p.1 < logstart ∨ logstart + 30 ≤ p.1)
    (hnd : ∀ i j (hi : i < L.length) (hj : j < L.length), i ≠ j →
      (L.get ⟨i, hi⟩).1 ≠ (L.get ⟨j, hj⟩).1) :
    ∃ d2 d3, stageAll logstart (log_begin_tx junk d0) L = some d2 ∧
      log_commit logstart d2 = some d3 ∧
      d3.header.valid_flag = .invalid ∧
      d3.header.size = 0 ∧
      (∀ j (h : j < L.length),
        d3.blocks ((L.get ⟨j, h⟩).1) = d2.blocks (logstart + j + 1) ∧
        d2.blocks (logstart + j + 1) = (L.get ⟨j, h⟩).2) := by
  obtain ⟨d2, h1, h2, h3, h4, h5, h6, h7⟩ := stageAll_spec logstart L
    (log_begin_tx junk d0) rfl (by simp [log_begin_tx]; omega)
  simp only [log_begin_tx] at h3 h4 h5
  simp only [Nat.zero_add] at h3 h4 h5
  have hsz29 : d2.header.size ≤ 29 := by omega
  have hcommit : log_commit logstart d2
      = some { header := { valid_flag := .invalid, size := 0,
                           disk_loc := d2.header.disk_loc }
               blocks := replay logstart d2.header.size d2.header.disk_loc d2.blocks } := by
    simp [log_commit, h2, hsz29]
  refine ⟨d2, _, h1, hcommit, rfl, rfl, ?_⟩
  intro j hj
  refine ⟨?_, h5 j hj⟩
  show replay logstart d2.header.size d2.header.disk_loc d2.blocks ((L.get ⟨j, hj⟩).1)
      = d2.blocks (logstart + j + 1)
  rw [replay, h3]
  rw [show (L.get ⟨j, hj⟩).1 = d2.header.disk_loc j from (h4 j hj).symm]
  apply replayGo_hit logstart d2.header.disk_loc L.length 0 d2.blocks d2.blocks
    (fun _ _ => rfl) ?_ j (by omega) (by omega) ?_
  · intro a ha1 ha2 m hm
    rw [h4 a (by omega)]
    have hmem : L.get ⟨a, by omega⟩ ∈ L := List.get_mem L _ _
    have := hout _ hmem
    omega
  · intro a ha1 ha2 hne
    rw [h4 a (by omega), h4 j hj]
    exact hnd a j (by omega) hj hne

/-- Concrete uninitialized-stack contents for the witness. -/
def junk0 : Nat → Nat := fun _ => 7

/-- A concrete starting disk for the witness. -/
def dL0 : LDisk :=
  { header := { valid_flag := .valid, size := 3, disk_loc := fun _ => 0 },
    blocks := fun _ => 0 }

theorem log_commit_ok_witness :
    ((stageAll 10 (log_begin_tx junk0 dL0) [(2, 99), (50, 77)]).bind
      (log_commit 10)).map
      (fun d => (d.header.valid_flag, d.header.size, d.blocks 2, d.blocks 50))
      = some (.invalid, 0, 99, 77) := by
  obtain ⟨d2, d3, h1, h2, h3, h4, h5⟩ := log_commit_ok 10 junk0 dL0 [(2, 99), (50, 77)]
    (by decide) (by decide)
    (by
      intro i j hi hj hne
      simp only [List.length_cons, List.length_nil] at hi hj
      interval_cases i <;> interval_cases j <;> simp_all [List.get])
  have hb2 : d3.blocks 2 = 99 :=
    ((h5 0 (by simp)).1).trans ((h5 0 (by simp)).2)
  have hb50 : d3.blocks 50 = 77 :=
    ((h5 1 (by simp)).1).trans ((h5 1 (by simp)).2)
  rw [h1]
  simp only [Option.some_bind]
  rw [h2]
  simp [h3, h4, hb2, hb50]

/-! ### Open-file table, file descriptors and pipes
(kernel/sysfile.c, kernel/file.c, inc/file.h)

Pointers become ids/indexes: an open-file entry's `fileptr` is an index
into `global_files.files`, `pipeptr` a pipe id handed out by `kalloc`
(0 in zero-initialized entries, like a C null pointer), `inodep` an inode
id.  The per-process `file_array` and the global table are lists, whose
lengths stand for `NOFILE` and `NFILE`.  The `O_*` mode constants live in
inc/fcntl.h, outside the sources; the code only compares modes for
(in)equality, so any three distinct values are faithful. -/

/-- inc/file.h: `DESC_AVAIL`. -/
def DESC_AVAIL : Nat := 0
/-- inc/file.h: `FILE_AVAIL`. -/
def FILE_AVAIL : Nat := 0
/-- inc/file.h: `DESC_NOT_AVAIL`. -/
def DESC_NOT_AVAIL : Nat := 1
/-- inc/file.h: `FILE_NOT_AVAIL`. -/
def FILE_NOT_AVAIL : Nat := 1
/-- inc/file.h: `MAX_PIPE_SIZE`. -/
def MAX_PIPE_SIZE : Nat := 4000
/-- inc/file.h: enum value `FILE`. -/
def FILE : Nat := 1
/-- inc/file.h: enum value `PIPE`. -/
def PIPE : Nat := 2
/-- inc/fcntl.h (not in the sources): read-only open mode. -/
def O_RDONLY : Int := 0
/-- inc/fcntl.h (not in the sources): write-only open mode. -/
def O_WRONLY : Int := 1
/-- inc/fcntl.h (not in the sources): read-write open mode. -/
def O_RDWR : Int := 2

/-- `struct file` (inc/file.h): one open-file table entry. -/
structure OFile where
  inodep : Nat
  offset : Int
  ref_count : Int
  available : Nat
  access_mode : Int
  pipeptr : Nat
  file_type : Nat
deriving DecidableEq

/-- A zero-initialized entry, as C static storage leaves it. -/
def OFile0 : OFile :=
  { inodep := 0, offset := 0, ref_count := 0, available := 0, access_mode := 0,
    pipeptr := 0, file_type := 0 }

/-- `struct pipe` (inc/file.h): the kernel circular buffer. -/
structure Pipe where
  read_off : Nat
  write_off : Nat
  data_count : Nat
  buffer : Nat → Nat

/-- The reader scan in the pipe branch of `sys_write`
(kernel/sysfile.c:310-318 and 333-341): sum of `ref_count` over in-use
(`available == FILE_NOT_AVAIL`) entries with `access_mode == O_RDONLY`,
`file_type == PIPE` and `pipeptr` equal to this pipe. -/
def readRefSum (files : List OFile) (pid : Nat) : Int :=
  files.foldl (fun acc f =>
    if f.available = FILE_NOT_AVAIL ∧ f.access_mode = O_RDONLY ∧
       f.file_type = PIPE ∧ f.pipeptr = pid
    then acc + f.ref_count else acc) 0

/-- The writer scan in the pipe branch of `sys_read`
(kernel/sysfile.c:185-193): same but for `access_mode == O_WRONLY`. -/
def writeRefSum (files : List OFile) (pid : Nat) : Int :=
  files.foldl (fun acc f =>
    if f.available = FILE_NOT_AVAIL ∧ f.access_mode = O_WRONLY ∧
       f.file_type = PIPE ∧ f.pipeptr = pid
    then acc + f.ref_count else acc) 0

/-! The pipe loops run under `pipe->lock` after the global lock has been
released.  The embedding is a single-threaded run: no other thread can
execute `wakeup`, so a `sleep(pipe, &pipe->lock)` never returns and the
call is `none`.  The loops carry fuel; `none` covers both a sleeping run
and fuel exhaustion (neither returns a value). -/

/-- Inner byte-copy loop of the pipe branch of `sys_read`
(kernel/sysfile.c:205-215): a do-while that moves one byte per iteration
from `buffer[read_off]`, until `data_read == size` or the buffer drains. -/
def pipeReadBytes : Nat → Pipe → List Nat → Nat → Option (Pipe × List Nat)
  | 0, _, _, _ => none
  | fuel + 1, p, out, size =>
    let b := p.buffer p.read_off
    let p' : Pipe := { p with read_off := (p.read_off + 1) % MAX_PIPE_SIZE
                              data_count := p.data_count - 1 }
    let out' := out ++ [b]
    if out'.length = size ∨ p'.data_count = 0 then some (p', out')
    else pipeReadBytes fuel p' out' size

/-- Outer loop of the pipe branch of `sys_read`
(kernel/sysfile.c:179-219): while the buffer is empty, if no in-use
writer entry references the pipe, return the bytes read so far (possibly
0 — EOF); otherwise sleep.  With data available, run the byte-copy loop
and `wakeup` (a no-op here). -/
def pipeReadLoop (files : List OFile) (pid : Nat) :
    Nat → Pipe → List Nat → Nat → Option (Int × Pipe × List Nat)
  | 0, _, _, _ => none
  | fuel + 1, p, out, size =>
    if out.length = size then some ((out.length : Int), p, out)
    else if p.data_count = 0 then
      if writeRefSum files pid = 0 ∧ p.data_count = 0 then
        some ((out.length : Int), p, out)
      else none
    else
      match pipeReadBytes (fuel + 1) p out size with
      | none => none
      | some (p', out') => pipeReadLoop files pid fuel p' out' size

/-- The pipe branch of `sys_read` (kernel/sysfile.c:172-222), entered with
`data_read = 0`. -/
def pipeRead (files : List OFile) (pid : Nat) (size fuel : Nat) (p : Pipe) :
    Option (Int × Pipe × List Nat) :=
  pipeReadLoop files pid fuel p [] size

/-- Inner byte-copy loop of the pipe branch of `sys_write`
(kernel/sysfile.c:352-362): a do-while moving one byte per iteration into
`buffer[write_off]`, until `data_written == size` or the buffer fills. -/
def pipeWriteBytes (data : List Nat) : Nat → Pipe → Nat → Option (Pipe × Nat)
  | 0, _, _ => none
  | fuel + 1, p, written =>
    let p' : Pipe :=
      { p with buffer := fun i => if i = p.write_off then data.getD written 0 else p.buffer i
               write_off := (p.write_off + 1) % MAX_PIPE_SIZE
               data_count := p.data_count + 1 }
    if written + 1 = data.length ∨ p'.data_count = MAX_PIPE_SIZE then some (p', written + 1)
    else pipeWriteBytes data fuel p' (written + 1)

/-- Outer loop of the pipe branch of `sys_write`
(kernel/sysfile.c:326-366): while the buffer is full, re-check the reader
count (fail with -1 when it is zero), else sleep; with space available,
run the byte-copy loop and `wakeup`. -/
def pipeWriteLoop (files : List OFile) (pid : Nat) (data : List Nat) :
    Nat → Pipe → Nat → Option (Int × Pipe)
  | 0, _, _ => none
  | fuel + 1, p, written =>
    if written = data.length then some ((written : Int), p)
    else if p.data_count = MAX_PIPE_SIZE then
      if readRefSum files pid = 0 then some (-1, p)
      else none
    else
      match pipeWriteBytes data (fuel + 1) p written with
      | none => none
      | some (p', written') => pipeWriteLoop files pid data fuel p' written'

/-- The pipe branch of `sys_write` (kernel/sysfile.c:302-368): before the
loop, if no in-use read-mode entry references this pipe, return -1
immediately. -/
def pipeWrite (files : List OFile) (pid : Nat) (data : List Nat) (fuel : Nat)
    (p : Pipe) : Option (Int × Pipe) :=
  if readRefSum files pid = 0 then some (-1, p)
  else pipeWriteLoop files pid data fuel p 0

/-- **C5.** A `sys_write` on a pipe-type open-file entry whose pipe has
zero reader references (the `readRefSum` scan) returns `-1` immediately:
no blocking (`some`, reached before any sleep) and the pipe state —
buffer, offsets, count — is returned unchanged. -/
theorem pipeWrite_no_readers (files : List OFile) (pid : Nat) (data : List Nat)
    (fuel : Nat) (p : Pipe) (h : readRefSum files pid = 0) :
    pipeWrite files pid data fuel p = some (-1, p) := by
  simp [pipeWrite, h]

/-- **C6.** In a `sys_read` on a pipe-type open-file entry, whenever the
buffer is empty and the pipe has zero writer references (the
`writeRefSum` scan), the loop returns the bytes read so far — `0` when
nothing was read yet (EOF) — rather than sleeping or returning `-1`. -/
theorem pipeRead_eof (files : List OFile) (pid : Nat) (fuel : Nat) (p : Pipe)
    (out : List Nat) (size : Nat)
    (hempty : p.data_count = 0) (hw : writeRefSum files pid = 0) :
    pipeReadLoop files pid (fuel + 1) p out size = some ((out.length : Int), p, out) := by
  simp only [pipeReadLoop]
  by_cases hsz : out.length = size
  · rw [if_pos hsz]
  · rw [if_neg hsz, if_pos hempty, if_pos (And.intro hw hempty)]

/-- A concrete open-file table for the pipe witnesses: entry 1 is an
in-use write end of pipe 1; no read entry exists. -/
def filesW : List OFile :=
  [OFile0,
   { inodep := 0, offset := 0, ref_count := 1, available := 1, access_mode := 1,
     pipeptr := 1, file_type := 2 }]

/-- A concrete empty pipe. -/
def pipe0 : Pipe := { read_off := 0, write_off := 0, data_count := 0, buffer := fun _ => 0 }

theorem pipeWrite_no_readers_witness :
    pipeWrite filesW 1 [10, 20] 5 pipe0 = some (-1, pipe0) :=
  pipeWrite_no_readers filesW 1 [10, 20] 5 pipe0 (by decide)

/-- A concrete open-file table with a read end of pipe 1 and no writers. -/
def filesR : List OFile :=
  [OFile0,
   { inodep := 0, offset := 0, ref_count := 1, available := 1, access_mode := 0,
     pipeptr := 1, file_type := 2 }]

theorem pipeRead_eof_witness :
    pipeReadLoop filesR 1 5 pipe0 [] 100 = some (0, pipe0, []) :=
  pipeRead_eof filesR 1 4 pipe0 [] 100 (by decide) (by decide)

/-- `struct desc` (inc/file.h): a per-process descriptor slot; `fileptr`
becomes `fileidx`, an index into the global open-file table. -/
structure Desc where
  fileidx : Nat
  available : Nat
deriving DecidableEq

/-- State of the descriptor layer: `global_files.files`, the calling
process's `file_array` (their lengths standing for `NFILE` / `NOFILE`),
and a counter handing out fresh pipe ids for `kalloc` (starting above 0,
the null pointer). -/
structure SysSt where
  files : List OFile
  descs : List Desc
  next_pipe : Nat
deriving DecidableEq

/-- Update index `i` of a list in place (a store through a C pointer or
index); out-of-range writes cannot occur at the call sites kept here. -/
def updAt {α : Type} (l : List α) (i : Nat) (g : α → α) : List α :=
  match l.get? i with
  | some x => l.set i (g x)
  | none => l

/-- `sys_open` (kernel/sysfile.c:514), from the point where `namei` and
the mode check have succeeded (they precede any table mutation and fail
with -1): claim the lowest available descriptor (kept claimed even if the
file-table scan then fails, as in the C), claim the first available
open-file entry, and populate it with
`{access_mode, inodep, ref_count = 1, offset = 0, file_type = FILE}`. -/
def sys_open_model (ip : Nat) (mode : Int) (st : SysSt) : Int × SysSt :=
  match st.descs.findIdx? (fun d => d.available = DESC_AVAIL) with
  | none => (-1, st)
  | some fd =>
    let descs1 := updAt st.descs fd (fun d => { d with available := DESC_NOT_AVAIL })
    match st.files.findIdx? (fun f => f.available = FILE_AVAIL) with
    | none => (-1, { st with descs := descs1 })
    | some fi =>
      let files1 := updAt st.files fi (fun f =>
        { f with available := FILE_NOT_AVAIL, access_mode := mode, inodep := ip,
                 ref_count := 1, offset := 0, file_type := FILE })
      let descs2 := updAt descs1 fd (fun d => { d with fileidx := fi })
      ((fd : Int), { st with files := files1, descs := descs2 })

/-- `sys_dup` (kernel/sysfile.c:39): validate the descriptor, sanity-check
the entry is in use, claim the lowest available descriptor, point it at
the same entry and increment `ref_count`. -/
def sys_dup_model (fd : Nat) (st : SysSt) : Int × SysSt :=
  if hb : fd < st.descs.length then
    let dsc := st.descs.get ⟨fd, hb⟩
    if dsc.available = DESC_AVAIL then (-1, st)
    else if (st.files.getD dsc.fileidx OFile0).available = FILE_AVAIL then (-1, st)
    else
      match st.descs.findIdx? (fun d => d.available = DESC_AVAIL) with
      | none => (-1, st)
      | some nfd =>
        let descs1 := updAt st.descs nfd (fun d =>
          { d with available := DESC_NOT_AVAIL, fileidx := dsc.fileidx })
        let files1 := updAt st.files dsc.fileidx (fun f =>
          { f with ref_count := f.ref_count + 1 })
        ((nfd : Int), { st with descs := descs1, files := files1 })
  else (-1, st)

/-- `sys_close` (kernel/sysfile.c:394): validate the descriptor, decrement
the entry's `ref_count`; only when it reaches 0 **and** `file_type ==
FILE` is the entry marked `FILE_AVAIL` (and the inode released); the
descriptor is freed; for `file_type == PIPE` the code then sums the
`ref_count`s of all in-use entries referencing the pipe and `kfree`s the
pipe buffer when the sum is 0 — it never marks the entry `FILE_AVAIL`. -/
def sys_close_model (fd : Nat) (st : SysSt) : Int × SysSt :=
  if hb : fd < st.descs.length then
    let dsc := st.descs.get ⟨fd, hb⟩
    if dsc.available = DESC_AVAIL then (-1, st)
    else
      let fi := dsc.fileidx
      let files1 := updAt st.files fi (fun f => { f with ref_count := f.ref_count - 1 })
      let f1 := files1.getD fi OFile0
      let files2 :=
        if f1.ref_count = 0 ∧ f1.file_type = FILE
        then updAt files1 fi (fun f => { f with available := FILE_AVAIL })
        else files1
      let descs1 := updAt st.descs fd (fun d => { d with available := DESC_AVAIL })
      -- pipe branch: the ref_count scan decides only the kfree of the pipe
      -- buffer, which has no footprint in this state
      (0, { st with files := files2, descs := descs1 })
  else (-1, st)

/-- `sys_pipe` (kernel/sysfile.c:723): claim the two lowest available
descriptors (rolling back the first if there is no second), `kalloc` the
pipe (failure leaks the claimed descriptors and returns -1, as in the C),
then claim the first two available open-file entries as the `O_RDONLY`
and `O_WRONLY` ends, both `PIPE`-typed with `ref_count = 1`.  When only
one entry is found, the error path stores `FILE_NOT_AVAIL` — not
`FILE_AVAIL` — into its `available` field and fails.  When no descriptor
at all is available the C indexes `file_array[-1]`: undefined behavior,
`none`. -/
def sys_pipe_model (kalloc_ok : Bool) (st : SysSt) : Option (Int × SysSt) :=
  match st.descs.findIdx? (fun d => d.available = DESC_AVAIL) with
  | none => none
  | some fdr =>
    let descs1 := updAt st.descs fdr (fun d => { d with available := DESC_NOT_AVAIL })
    match descs1.findIdx? (fun d => d.available = DESC_AVAIL) with
    | none =>
      let descsR := updAt descs1 fdr (fun d => { d with available := DESC_AVAIL })
      some (-1, { st with descs := descsR })
    | some fdw =>
      let descs2 := updAt descs1 fdw (fun d => { d with available := DESC_NOT_AVAIL })
      if kalloc_ok then
        let pid := st.next_pipe
        match st.files.findIdx? (fun f => f.available = FILE_AVAIL) with
        | none =>
          -- neither end found: the error check `found_read_file &&
          -- !found_write_file` is false, so the C falls through and
          -- returns 0 with the descriptors pointing at stale entries
          some (0, { st with descs := descs2, next_pipe := pid + 1 })
        | some fir =>
          let files1 := updAt st.files fir (fun f =>
            { f with available := FILE_NOT_AVAIL, file_type := PIPE, ref_count := 1,
                     pipeptr := pid, access_mode := O_RDONLY })
          let descs3 := updAt descs2 fdr (fun d => { d with fileidx := fir })
          match files1.findIdx? (fun f => f.available = FILE_AVAIL) with
          | none =>
            some (-1, { st with
              files := updAt files1 fir (fun f => { f with available := FILE_NOT_AVAIL }),
              descs := descs3, next_pipe := pid + 1 })
          | some fiw =>
            let files2 := updAt files1 fiw (fun f =>
              { f with available := FILE_NOT_AVAIL, file_type := PIPE, ref_count := 1,
                       pipeptr := pid, access_mode := O_WRONLY })
            let descs4 := updAt descs3 fdw (fun d => { d with fileidx := fiw })
            some (0, { st with files := files2, descs := descs4, next_pipe := pid + 1 })
      else some (-1, { st with descs := descs2 })

/-- A fresh process/table state: two zeroed open-file entries, two free
descriptors. -/
def pipeSt0 : SysSt :=
  { files := [OFile0, OFile0], descs := [⟨0, 0⟩, ⟨0, 0⟩], next_pipe := 1 }

/-- Create a pipe, then close its read descriptor. -/
def pipeRun : Option SysSt :=
  (sys_pipe_model true pipeSt0).map (fun r => (sys_close_model 0 r.2).2)

/-- **C7, violated by the code.** The invariant `ref_count == 0 ⇔
available == FREE` holds in the fresh state, but after `pipe()` followed
by `close()` of the read descriptor, the read-end open-file entry has
`ref_count = 0` while still `FILE_NOT_AVAIL`: `sys_close` only frees
`FILE`-type entries, never `PIPE`-type ones. -/
def pipeRunSt : SysSt := pipeRun.getD pipeSt0

theorem close_pipe_breaks_file_inv :
    (∀ f ∈ pipeSt0.files, f.ref_count = 0 ↔ f.available = FILE_AVAIL) ∧
    pipeRun.isSome = true ∧
    (pipeRunSt.files.getD 0 OFile0).ref_count = 0 ∧
    (pipeRunSt.files.getD 0 OFile0).available = FILE_NOT_AVAIL ∧
    ¬ (∀ f ∈ pipeRunSt.files, f.ref_count = 0 ↔ f.available = FILE_AVAIL) := by
  exact ⟨by decide, by decide, by decide, by decide, by decide⟩

end Xk
